import Mathlib

/-!
Verification of the lorri build-loop core against its specification.

The development shallowly embeds the Rust sources:
  src/builder.rs      (output parsing and the classified-stream fold),
  src/build_loop.rs   (the once and forever operations of BuildLoop),
  src/ops/shell.rs    (print_build_event).

Collaborators whose code is not under src/ (the nix helper module with
parse_nix_output, the pathreduction module with reduce_paths, the roots
module with Roots::add, and the watch module) are modelled from the
specification; each such definition carries a doc comment starting with
the words: Modelled from the spec.

Strings are embedded as lists of characters; byte strings that may fail
UTF-8 decoding are embedded by the OsStr type below, which mirrors the
only operation the source performs on them, namely OsStr::to_str.
-/

/-- The single-quote character, written via its code point. -/
def quoteC : Char := Char.ofNat 39

/-- The newline character. The dot of a Rust regex matches any character
except newline, and the anchors match only at the true ends of the text. -/
def nlC : Char := Char.ofNat 10

/-- The path-separator character, used by the path-reduction model. -/
def slashC : Char := Char.ofNat 47

/-- Boolean test that the first list is an initial segment of the second.
A regex anchored at the start with a literal prefix matches exactly when
this holds for the literal. -/
def leadsWith [DecidableEq α] : List α → List α → Bool
  | [], _ => true
  | _ :: _, [] => false
  | a :: as, b :: bs => a = b && leadsWith as bs

/-- A byte string captured from the child process. The source only ever
inspects such a string through OsStr::to_str, so the embedding records
whether decoding succeeds (utf8) or fails (nonUtf8). -/
inductive OsStr
  | utf8 (chars : List Char)
  | nonUtf8 (bytes : List Nat)
deriving DecidableEq

/-- OsStr::to_str from the source: decoding yields the character list
exactly in the utf8 case. -/
def OsStr.toStr : OsStr → Option (List Char)
  | .utf8 s => some s
  | .nonUtf8 _ => none

/-- LogDatum from src/builder.rs: the three classifications of a stderr
line. -/
inductive LogDatum
  | Source (p : List Char)
  | AttrDrv (name : List Char) (drv : List Char)
  | Text (line : OsStr)
deriving DecidableEq

/-- Literal prefix of the EVAL_FILE regex in src/builder.rs. -/
def evalFilePre : List Char := ("evaluating file ".data) ++ [quoteC]

/-- Literal prefix of the COPIED_SOURCE regex in src/builder.rs. -/
def copiedSourcePre : List Char := ("copied source ".data) ++ [quoteC]

/-- Literal prefix of the LORRI_READ regex in src/builder.rs. -/
def lorriReadPre : List Char := ("trace: lorri read: ".data) ++ [quoteC]

/-- Literal prefix of the LORRI_ATTR_DRV regex in src/builder.rs. -/
def lorriAttrPre : List Char := ("trace: lorri attribute: ".data) ++ [quoteC]

/-- The literal text standing between the two capture groups of the
COPIED_SOURCE and LORRI_ATTR_DRV regexes: a closing quote, an arrow, and
an opening quote. -/
def midArrow : List Char := [quoteC] ++ (" -> ".data) ++ [quoteC]

/-- The literal store prefix required of the drv capture group of the
LORRI_ATTR_DRV regex. -/
def nixStorePre : List Char := "/nix/store/".data

/-- Matching for the one-group regexes of src/builder.rs, of shape:
start anchor, literal prefix including an opening quote, a greedy dot
star capture, a closing quote, end anchor. The capture is the unique
middle segment; dot excludes newline. -/
def capSimple (pre : List Char) (l : List Char) : Option (List Char) :=
  if leadsWith pre l then
    let rest := l.drop pre.length
    match rest.getLast? with
    | some c =>
      if c = quoteC && rest.dropLast.all (fun ch => ch != nlC) then
        some rest.dropLast
      else none
    | none => none
  else none

/-- Greedy split of the core of a two-group regex match: the first group
is a greedy dot star, so the split point is the largest index at which
the literal midArrow occurs, the left part is newline-free, and the
right part satisfies the remainder test. Mirrors the leftmost-first
capture semantics of the regex crate. -/
def greedySplit (core : List Char) (tOk : List Char → Bool) :
    Option (List Char × List Char) :=
  ((List.range (core.length + 1)).reverse).findSome? (fun i =>
    let a := core.take i
    let r := core.drop i
    if leadsWith midArrow r && a.all (fun ch => ch != nlC) then
      let t := r.drop midArrow.length
      if tOk t then some (a, t) else none
    else none)

/-- Matching for the two-group regexes of src/builder.rs, of shape:
start anchor, literal prefix including an opening quote, greedy dot star
capture, the midArrow literal, a second segment restricted by tOk, a
closing quote, end anchor. -/
def capPair (pre : List Char) (tOk : List Char → Bool) (l : List Char) :
    Option (List Char × List Char) :=
  if leadsWith pre l then
    let rest := l.drop pre.length
    match rest.getLast? with
    | some c =>
      if c = quoteC then greedySplit rest.dropLast tOk
      else none
    | none => none
  else none

/-- The four recognizers of parse_evaluation_line, named after the four
regex constants of src/builder.rs. -/
inductive Recog
  | evalFile
  | copiedSource
  | lorriRead
  | lorriAttr
deriving DecidableEq

/-- The literal prefix each recognizer demands of a line. -/
def preOf : Recog → List Char
  | .evalFile => evalFilePre
  | .copiedSource => copiedSourcePre
  | .lorriRead => lorriReadPre
  | .lorriAttr => lorriAttrPre

/-- Semantics of one recognizer applied to a decoded line, producing the
LogDatum built by the corresponding branch of parse_evaluation_line. -/
def recOf : Recog → List Char → Option LogDatum
  | .evalFile, s => (capSimple evalFilePre s).map (fun src => LogDatum.Source src)
  | .copiedSource, s =>
    (capPair copiedSourcePre (fun t => t.all (fun ch => ch != nlC)) s).map
      (fun p => LogDatum.Source p.1)
  | .lorriRead, s => (capSimple lorriReadPre s).map (fun src => LogDatum.Source src)
  | .lorriAttr, s =>
    (capPair lorriAttrPre
      (fun t => leadsWith nixStorePre t && t.all (fun ch => ch != nlC)) s).map
      (fun p => LogDatum.AttrDrv p.1 p.2)

/-- parse_evaluation_line from src/builder.rs: a line failing UTF-8
decoding is passed through as Text; otherwise the four recognizers are
tried in the source order, and a line matching none of them falls
through to Text. -/
def parse_evaluation_line (line : OsStr) : LogDatum :=
  match line.toStr with
  | none => LogDatum.Text line
  | some s =>
    match recOf Recog.evalFile s with
    | some d => d
    | none =>
      match recOf Recog.copiedSource s with
      | some d => d
      | none =>
        match recOf Recog.lorriRead s with
        | some d => d
        | none =>
          match recOf Recog.lorriAttr s with
          | some d => d
          | none => LogDatum.Text line

/-- Modelled from the spec: parse_nix_output lives in the nix module,
which is not under src/. The spec says the captured output is split on
newline and the given classifier is applied to each line; the embedding
takes the list of lines directly and maps the classifier over it. -/
def parse_nix_output (f : OsStr → α) (lines : List OsStr) : List α :=
  lines.map f

/-- Insertion into a hash map, embedded as an association list: an
existing binding of the key has its value replaced in place, otherwise
the binding is appended. Mirrors HashMap::insert as used by the source. -/
def hmInsert [BEq κ] (k : κ) (v : α) (m : List (κ × α)) : List (κ × α) :=
  if m.any (fun p => p.1 == k) then
    m.map (fun p => if p.1 == k then (k, v) else p)
  else m ++ [(k, v)]

/-- Lookup in the association-list embedding of a hash map. -/
def hmLookup [BEq κ] (k : κ) (m : List (κ × α)) : Option α :=
  (m.find? (fun p => p.1 == k)).map (fun p => p.2)

/-- One step of the fold in instrumented_build (src/builder.rs, lines
57 to 73): Source appends to paths, AttrDrv inserts into named_drvs,
Text appends to log_lines. -/
def foldStep
    (acc : List (List Char) × List (List Char × List Char) × List OsStr)
    (r : LogDatum) :
    List (List Char) × List (List Char × List Char) × List OsStr :=
  match r with
  | .Source src => (acc.1 ++ [src], acc.2.1, acc.2.2)
  | .AttrDrv n d => (acc.1, hmInsert n d acc.2.1, acc.2.2)
  | .Text l => (acc.1, acc.2.1, acc.2.2 ++ [l])

/-- The full fold of instrumented_build over the classified stderr
stream, starting from the empty triple. -/
def foldTriple (rs : List LogDatum) :
    List (List Char) × List (List Char × List Char) × List OsStr :=
  rs.foldl foldStep ([], [], [])

/-- Info from src/builder.rs: the result of one evaluator invocation.
The exit status is embedded as its success test, which is the only
observation the source makes of it. -/
structure Info where
  exec_result : Bool
  named_drvs : List (List Char × List Char)
  drvs : List (List Char)
  paths : List (List Char)
  log_lines : List OsStr
deriving DecidableEq

/-- instrumented_build from src/builder.rs, after the child process has
exited: stderr lines are classified and folded, stdout lines become the
positional drvs. The spawn of the child and the byte-level splitting
happen outside this pure core. -/
def instrumented_build (exec_result : Bool) (stdoutLines : List (List Char))
    (stderrLines : List OsStr) : Info :=
  let stderr_results := parse_nix_output parse_evaluation_line stderrLines
  let folded := foldTriple stderr_results
  { exec_result := exec_result
    named_drvs := folded.2.1
    drvs := stdoutLines
    paths := folded.1
    log_lines := folded.2.2 }

/-- The character of one decimal digit. -/
def digitC (n : Nat) : Char := Char.ofNat (48 + n)

/-- The numeric value of one decimal digit character. -/
def digitVal (c : Char) : Nat := c.toNat - 48

/-- Accumulator form of decimal rendering, least significant digit
pushed first. -/
def natCharsAux (n : Nat) (acc : List Char) : List Char :=
  if n < 10 then digitC n :: acc
  else natCharsAux (n / 10) (digitC (n % 10) :: acc)
termination_by n
decreasing_by
  exact Nat.div_lt_self (by omega) (by omega)

/-- Decimal rendering of a natural number, as produced by the Display
formatting the source feeds into its format strings. -/
def natChars (n : Nat) : List Char := natCharsAux n []

/-- Reading a digit list back into a number, used to prove natChars
injective. -/
def charsToNat (l : List Char) : Nat :=
  l.foldl (fun a c => a * 10 + digitVal c) 0

/-- The logical root name attr-(name) built by BuildLoop::once for a
named artifact. -/
def attrName (n : List Char) : List Char := ("attr-".data) ++ n

/-- The logical root name build-(index) built by BuildLoop::once for a
positional artifact. -/
def buildName (i : Nat) : List Char := ("build-".data) ++ natChars i

/-- RootPath: Modelled from the spec. The roots module is not under
src/; the spec says add installs a durable reference named by the
logical name under the per-project directory and returns its path, so a
root path is determined by the logical name. -/
structure RootPath where
  name : List Char
deriving DecidableEq

/-- AddRootError from the roots module, opaque to the loop. -/
structure AddRootError where
deriving DecidableEq

/-- Error class of the watch and notify plumbing, opaque to the loop. -/
structure NotifyError where
deriving DecidableEq

/-- BuildExitFailure from src/build_loop.rs: the stderr log lines of a
failing invocation. -/
structure BuildExitFailure where
  log_lines : List OsStr
deriving DecidableEq

/-- UnrecoverableErrors from src/build_loop.rs. -/
inductive UnrecoverableErrors
  | build
  | addRoot (e : AddRootError)
  | notify (e : NotifyError)
deriving DecidableEq

/-- BuildError from src/build_loop.rs. -/
inductive BuildError
  | recoverable (f : BuildExitFailure)
  | unrecoverable (u : UnrecoverableErrors)
deriving DecidableEq

/-- BuildResults from src/build_loop.rs: positional and named root
paths of a successful build. -/
structure BuildResults where
  drvs : List (Nat × RootPath)
  named_drvs : List (List Char × RootPath)
deriving DecidableEq

/-- The two collaborator operations BuildLoop::once calls besides the
builder: Roots::add and Watch::extend. Both may fail. -/
structure Collabs where
  addRoot : List Char → List Char → Except AddRootError RootPath
  extendWatch : List (List Char) → Except NotifyError Unit

/-- Modelled from the spec: the real Roots::add (roots module, not
under src/) always installs the reference named by the logical name and
returns its path; the real Watch::extend adds the paths to the watch
set. -/
def specCollabs : Collabs where
  addRoot := fun n _ => Except.ok ⟨n⟩
  extendWatch := fun _ => Except.ok ()

/-- The externally visible operations BuildLoop::once performs, in
order, used to state the critical-ordering claims. -/
inductive LoopOp
  | addRoot (name : List Char) (drv : List Char)
  | extendWatch (paths : List (List Char))
deriving DecidableEq

/-- Whether a loop operation is a root registration. -/
def isAddOp : LoopOp → Bool
  | .addRoot _ _ => true
  | .extendWatch _ => false

/-- The first for loop of BuildLoop::once: register each named drv
under attr-(name), inserting the returned root path into the result
map, propagating the first failure. Returns the outcome together with
the list of attempted registrations. -/
def registerNamed (c : Collabs) :
    List (List Char × List Char) → List (List Char × RootPath) →
    Except AddRootError (List (List Char × RootPath)) × List LoopOp
  | [], acc => (Except.ok acc, [])
  | (n, d) :: rest, acc =>
    match c.addRoot (attrName n) d with
    | .error e => (Except.error e, [LoopOp.addRoot (attrName n) d])
    | .ok r =>
      let next := registerNamed c rest (hmInsert n r acc)
      (next.1, LoopOp.addRoot (attrName n) d :: next.2)

/-- The second for loop of BuildLoop::once: register each positional
drv, paired with its index by enumerate, under build-(index). -/
def registerPositional (c : Collabs) :
    List (Nat × List Char) → List (Nat × RootPath) →
    Except AddRootError (List (Nat × RootPath)) × List LoopOp
  | [], acc => (Except.ok acc, [])
  | (i, d) :: rest, acc =>
    match c.addRoot (buildName i) d with
    | .error e => (Except.error e, [LoopOp.addRoot (buildName i) d])
    | .ok r =>
      let next := registerPositional c rest (hmInsert i r acc)
      (next.1, LoopOp.addRoot (buildName i) d :: next.2)

/-- Splitting a path on the separator character, yielding its
components; used only by the path-reduction model. -/
def splitSlash : List Char → List (List Char)
  | [] => [[]]
  | c :: rest =>
    match splitSlash rest with
    | [] => [[]]
    | g :: gs => if c = slashC then [] :: g :: gs else (c :: g) :: gs

/-- Strict domination of a path by an ancestor: the components of the
ancestor are a proper initial segment of the components of the path. -/
def dominatedBy (p q : List Char) : Bool :=
  leadsWith (splitSlash q) (splitSlash p) &&
    (splitSlash q).length < (splitSlash p).length

/-- Modelled from the spec: reduce_paths (pathreduction module, not
under src/) collapses the discovered source-path set to a watchable
subset by removing every path dominated by an ancestor present in the
set. -/
def reduce_paths (s : List (List Char)) : List (List Char) :=
  s.filter (fun p => !(s.any (fun q => dominatedBy p q)))

/-- BuildLoop::once from src/build_loop.rs, lines 98 to 136, after the
evaluator invocation has produced its Info: reduce the source paths,
register named then positional roots, extend the watch set with the
reduced paths, then return Ok on a successful exit status and a
recoverable BuildExitFailure otherwise. Collaborator failures propagate
as unrecoverable errors. The second component records the attempted
collaborator operations in order. -/
def buildLoopOnce (build : Info) (c : Collabs) :
    Except BuildError BuildResults × List LoopOp :=
  let paths := reduce_paths build.paths
  match registerNamed c build.named_drvs [] with
  | (.error e, tr) => (Except.error (BuildError.unrecoverable (.addRoot e)), tr)
  | (.ok named, tr1) =>
    match registerPositional c build.drvs.enum [] with
    | (.error e, tr2) =>
      (Except.error (BuildError.unrecoverable (.addRoot e)), tr1 ++ tr2)
    | (.ok drvs, tr2) =>
      let tr := tr1 ++ tr2 ++ [LoopOp.extendWatch paths]
      match c.extendWatch paths with
      | .error e => (Except.error (BuildError.unrecoverable (.notify e)), tr)
      | .ok _ =>
        if build.exec_result then
          (Except.ok ⟨drvs, named⟩, tr)
        else
          (Except.error (BuildError.recoverable ⟨build.log_lines⟩), tr)

/-- Event from src/build_loop.rs. -/
inductive Event
  | Started
  | Completed (r : BuildResults)
  | Failure (f : BuildExitFailure)
deriving DecidableEq

/-- The outcome one iteration of BuildLoop::forever observes from its
once call. -/
inductive OnceOut
  | ok (r : BuildResults)
  | recov (f : BuildExitFailure)
  | unrec
deriving DecidableEq

/-- One observable action of BuildLoop::forever: an event sent over the
channel, or a successful return of wait_for_change. -/
inductive LoopAct
  | emit (e : Event)
  | waited
deriving DecidableEq

/-- BuildLoop::forever from src/build_loop.rs, lines 67 to 92, as the
action trace of a finite run: each cycle sends Started, matches the
outcome of once (Ok sends Completed, a recoverable error sends Failure,
anything else panics on unwrap and ends the run), then blocks in
wait_for_change; a wait failure panics and ends the run. The input list
supplies each cycle with its once outcome and whether its wait call
returns. -/
def foreverActs : List (OnceOut × Bool) → List LoopAct
  | [] => []
  | (o, wOk) :: rest =>
    LoopAct.emit Event.Started ::
    match o with
    | .ok r =>
      LoopAct.emit (Event.Completed r) ::
        if wOk then LoopAct.waited :: foreverActs rest else []
    | .recov f =>
      LoopAct.emit (Event.Failure f) ::
        if wOk then LoopAct.waited :: foreverActs rest else []
    | .unrec => []

/-- The events of an action trace, in emission order. -/
def actEvents : List LoopAct → List Event
  | [] => []
  | .emit e :: r => e :: actEvents r
  | .waited :: r => actEvents r

/-- Acceptance of the prefixes of the language (Started followed by
Completed or Failure) star. The flag is true when the next event must
be a Started. -/
def altOk : Bool → List Event → Bool
  | _, [] => true
  | true, .Started :: r => altOk false r
  | false, .Completed _ :: r => altOk true r
  | false, .Failure _ :: r => altOk true r
  | _, _ => false

/-- Acceptance of traces in which no second Started is emitted before a
wait has returned. The flag is true when a Started has been emitted and
no wait has returned since. -/
def startWaitOk : Bool → List LoopAct → Bool
  | _, [] => true
  | true, .emit .Started :: _ => false
  | false, .emit .Started :: r => startWaitOk true r
  | _, .waited :: r => startWaitOk false r
  | b, .emit (.Completed _) :: r => startWaitOk b r
  | b, .emit (.Failure _) :: r => startWaitOk b r

/-- Rust slicing with a range start: returns the suffix when the start
index is within bounds and panics (none) otherwise. -/
def sliceFrom (start : Nat) (l : List α) : Option (List α) :=
  if start ≤ l.length then some (l.drop start) else none

/-- print_build_event from src/ops/shell.rs: the lines each event makes
the handler display. The Failure arm slices the last five log lines,
with the start index clamped by saturating_sub; none models a panic.
The surrounding literal message text and the newline join are pure
formatting and are omitted. -/
def print_build_event : Event → Option (List OsStr)
  | .Started => some []
  | .Completed _ => some []
  | .Failure f => sliceFrom (f.log_lines.length - 5) f.log_lines

/-- Watch from the watch module: an opaque initialized watcher handle. -/
structure Watch where
deriving DecidableEq

/-- Project from the project module, carrying the recipe file; only the
field BuildLoop::new stores is embedded. -/
structure Project where
  nix_file : List Char
deriving DecidableEq

/-- The BuildLoop handle of src/build_loop.rs: the borrowed project and
the initialized watcher. -/
structure BuildLoop where
  project : Project
  watch : Watch
deriving DecidableEq

/-- BuildLoop::new from src/build_loop.rs, lines 56 to 61: the result
of Watch::init is unwrapped with expect, so a failed initialization
panics (none) and a successful one yields the handle. No error value is
ever returned. -/
def BuildLoop.new (project : Project) (init : Except NotifyError Watch) :
    Option BuildLoop :=
  match init with
  | .ok w => some ⟨project, w⟩
  | .error _ => none

/-- The watch set accumulated over a loop session: each invocation
extends it with the reduced source-path set, as in BuildLoop::once. -/
def sessionWatchSet (infos : List Info) : List (List Char) :=
  infos.foldl (fun ws b => ws ++ reduce_paths b.paths) []

/-- First-some choice on options, used to state the fold lemmas. -/
def optOr (a b : Option α) : Option α :=
  match a with
  | some x => some x
  | none => b

/-- The source path a classification contributes to paths. -/
def srcOf : LogDatum → Option (List Char)
  | .Source p => some p
  | _ => none

/-- The line a classification contributes to log_lines. -/
def txtOf : LogDatum → Option OsStr
  | .Text l => some l
  | _ => none

/-- The drv of the last AttrDrv classification carrying the given
attribute name, scanning from the end of the stream. -/
def lastAttr (n : List Char) (rs : List LogDatum) : Option (List Char) :=
  rs.reverse.findSome? (fun r =>
    match r with
    | .AttrDrv k d => if k = n then some d else none
    | _ => none)

/-- The source order of the four recognizers in parse_evaluation_line. -/
def recOrder : List Recog :=
  [Recog.evalFile, Recog.copiedSource, Recog.lorriRead, Recog.lorriAttr]

/-- First-match classification of a decoded line under an arbitrary
ordering of the four recognizers, falling through to Text. -/
def applyOrder (ord : List Recog) (line : OsStr) : LogDatum :=
  match line.toStr with
  | none => LogDatum.Text line
  | some s => (ord.findSome? (fun r => recOf r s)).getD (LogDatum.Text line)

/-- Whether the parser classifies a line as opaque text. -/
def isTextLine (l : OsStr) : Bool :=
  match parse_evaluation_line l with
  | .Text _ => true
  | _ => false

/-- Whether a once outcome avoided the unrecoverable error class. -/
def unrecFree (r : Except BuildError BuildResults) : Bool :=
  match r with
  | .error (.unrecoverable _) => false
  | _ => true

/-- The registration an operation performs, if any. -/
def opAddPair : LoopOp → Option (List Char × List Char)
  | .addRoot n d => some (n, d)
  | .extendWatch _ => none

/-- Acceptance of operation traces in which no registration occurs
after a watch extension. -/
def addsBeforeExt (t : List LoopOp) : Bool :=
  (t.dropWhile isAddOp).all (fun o => !(isAddOp o))

/-- The naming discipline of BuildLoop::once: the logical root names
paired with the artifact paths they pin, named artifacts under
attr-(name) first, positional artifacts under build-(index) second. -/
def discipline (b : Info) : List (List Char × List Char) :=
  (b.named_drvs.map (fun p => (attrName p.1, p.2))) ++
    (b.drvs.enum.map (fun p => (buildName p.1, p.2)))

/-- Every root path contained in a BuildResults value. -/
def resultRoots (r : BuildResults) : List RootPath :=
  (r.named_drvs.map (fun p => p.2)) ++ (r.drvs.map (fun p => p.2))

theorem optOr_none (a : Option α) : optOr a none = a := by
  cases a <;> rfl

theorem optOr_assoc (a b c : Option α) :
    optOr (optOr a b) c = optOr a (optOr b c) := by
  cases a <;> rfl

theorem findSome?_append (f : α → Option β) (l₁ l₂ : List α) :
    (l₁ ++ l₂).findSome? f = optOr (l₁.findSome? f) (l₂.findSome? f) := by
  induction l₁ with
  | nil => rfl
  | cons a t ih =>
    simp only [List.cons_append, List.findSome?]
    cases f a <;> simp [optOr, ih]

theorem hmLookup_nil [BEq κ] (k : κ) : hmLookup (α := α) k [] = none := rfl

theorem find_map_insert [BEq κ] [LawfulBEq κ] (k : κ) (v : α) :
    ∀ m : List (κ × α), m.any (fun p => p.1 == k) = true →
      hmLookup k (m.map (fun p => if p.1 == k then (k, v) else p)) = some v := by
  intro m
  induction m with
  | nil => intro h; simp at h
  | cons p t ih =>
    intro h
    by_cases hp : (p.1 == k) = true
    · simp only [List.map_cons, if_pos hp, hmLookup]
      rw [List.find?_cons_of_pos _ (by simp)]
      rfl
    · simp only [List.any_cons, hp, Bool.false_or] at h
      simp only [List.map_cons, if_neg hp, hmLookup]
      rw [List.find?_cons_of_neg _ (by simpa using hp)]
      exact ih h

theorem hmLookup_hmInsert_self [BEq κ] [LawfulBEq κ] (k : κ) (v : α)
    (m : List (κ × α)) : hmLookup k (hmInsert k v m) = some v := by
  by_cases h : m.any (fun p => p.1 == k) = true
  · simp only [hmInsert, if_pos h]
    exact find_map_insert k v m h
  · simp only [hmInsert, if_neg h]
    induction m with
    | nil =>
      simp only [List.nil_append, hmLookup]
      rw [List.find?_cons_of_pos _ (by simp)]
      rfl
    | cons p t ih =>
      simp only [List.any_cons, Bool.or_eq_true, not_or] at h
      simp only [List.cons_append, hmLookup]
      rw [List.find?_cons_of_neg _ (by simpa using h.1)]
      exact ih (by simpa using h.2)

theorem hmLookup_hmInsert_ne [BEq κ] [LawfulBEq κ] {k k' : κ} (v : α)
    (hne : k' ≠ k) (m : List (κ × α)) :
    hmLookup k' (hmInsert k v m) = hmLookup k' m := by
  by_cases h : m.any (fun p => p.1 == k) = true
  · simp only [hmInsert, if_pos h]
    clear h
    induction m with
    | nil => rfl
    | cons p t ih =>
      by_cases hp : (p.1 == k) = true
      · have hpk : p.1 = k := by simpa using hp
        simp only [List.map_cons, if_pos hp, hmLookup]
        rw [List.find?_cons_of_neg _
            (by simp only [beq_iff_eq]; exact fun h => hne h.symm),
          List.find?_cons_of_neg _
            (by simp only [beq_iff_eq, hpk]; exact fun h => hne h.symm)]
        exact ih
      · simp only [List.map_cons, if_neg hp, hmLookup]
        by_cases hq : (p.1 == k') = true
        · rw [List.find?_cons_of_pos _ (by simpa using hq),
            List.find?_cons_of_pos _ (by simpa using hq)]
        · rw [List.find?_cons_of_neg _ (by simpa using hq),
            List.find?_cons_of_neg _ (by simpa using hq)]
          exact ih
  · simp only [hmInsert, if_neg h]
    induction m with
    | nil =>
      simp only [List.nil_append, hmLookup]
      rw [List.find?_cons_of_neg _
          (by simp only [beq_iff_eq]; exact fun h => hne h.symm)]
    | cons p t ih =>
      simp only [List.any_cons, Bool.or_eq_true, not_or] at h
      simp only [List.cons_append, hmLookup]
      by_cases hq : (p.1 == k') = true
      · rw [List.find?_cons_of_pos _ (by simpa using hq),
          List.find?_cons_of_pos _ (by simpa using hq)]
      · rw [List.find?_cons_of_neg _ (by simpa using hq),
          List.find?_cons_of_neg _ (by simpa using hq)]
        exact ih (by simpa using h.2)

theorem fold_fst (rs : List LogDatum) :
    ∀ acc, (rs.foldl foldStep acc).1 = acc.1 ++ rs.filterMap srcOf := by
  induction rs with
  | nil => intro acc; simp
  | cons r rest ih =>
    intro acc
    rw [List.foldl_cons, ih]
    cases r <;> simp [foldStep, srcOf]

theorem fold_logs (rs : List LogDatum) :
    ∀ acc, (rs.foldl foldStep acc).2.2 = acc.2.2 ++ rs.filterMap txtOf := by
  induction rs with
  | nil => intro acc; simp
  | cons r rest ih =>
    intro acc
    rw [List.foldl_cons, ih]
    cases r <;> simp [foldStep, txtOf]

theorem lastAttr_cons (n : List Char) (r : LogDatum) (rs : List LogDatum) :
    lastAttr n (r :: rs) = optOr (lastAttr n rs)
      (match r with
       | .AttrDrv k d => if k = n then some d else none
       | _ => none) := by
  simp only [lastAttr, List.reverse_cons]
  rw [findSome?_append]
  congr 1
  cases r with
  | AttrDrv k d =>
    by_cases hk : k = n <;> simp [List.findSome?, hk]
  | Source p => rfl
  | Text l => rfl

theorem fold_named (rs : List LogDatum) :
    ∀ acc n, hmLookup n (rs.foldl foldStep acc).2.1 =
      optOr (lastAttr n rs) (hmLookup n acc.2.1) := by
  induction rs with
  | nil => intro acc n; simp [lastAttr, optOr]
  | cons r rest ih =>
    intro acc n
    rw [List.foldl_cons, ih, lastAttr_cons, optOr_assoc]
    congr 1
    cases r with
    | Source p => rfl
    | Text l => rfl
    | AttrDrv k d =>
      by_cases hk : k = n
      · subst hk
        simp [foldStep, hmLookup_hmInsert_self, optOr]
      · simp [foldStep, hmLookup_hmInsert_ne d (Ne.symm hk), optOr, hk]

/-- C3: for every finite sequence of stderr lines the Output Parser
produces exactly one classification per line, with no drops and no
possibility of failure, and every line that is not valid UTF-8 is
classified as Text carrying the original bytes verbatim. -/
theorem parser_total_nonutf8 (L : List OsStr) :
    (parse_nix_output parse_evaluation_line L).length = L.length ∧
      ∀ bs : List Nat,
        parse_evaluation_line (OsStr.nonUtf8 bs) =
          LogDatum.Text (OsStr.nonUtf8 bs) := by
  constructor
  · exact List.length_map L parse_evaluation_line
  · intro bs; rfl

/-- C4: the single-pass fold over the classified stderr stream appends
to paths on Source, appends to log_lines on Text, and inserts into
named_drvs on AttrDrv with last-write-wins: looking any attribute name
up in the resulting map yields the drv of the last AttrDrv
classification carrying that name. -/
theorem fold_classification (rs : List LogDatum) :
    (foldTriple rs).1 = rs.filterMap srcOf ∧
      (foldTriple rs).2.2 = rs.filterMap txtOf ∧
      ∀ n, hmLookup n (foldTriple rs).2.1 = lastAttr n rs := by
  refine ⟨?_, ?_, ?_⟩
  · simpa using fold_fst rs ([], [], [])
  · simpa using fold_logs rs ([], [], [])
  · intro n
    rw [foldTriple, fold_named rs ([], [], []) n, hmLookup_nil, optOr_none]

/-- C9: the Failure arm of print_build_event never panics: the slice
start index is clamped by saturating subtraction, so slicing always
succeeds, and when fewer than five log lines are present all of them
are printed. -/
theorem print_build_event_failure_safe (ls : List OsStr) :
    (print_build_event (Event.Failure ⟨ls⟩)).isSome = true ∧
      (ls.length < 5 → print_build_event (Event.Failure ⟨ls⟩) = some ls) := by
  constructor
  · simp [print_build_event, sliceFrom, Nat.sub_le]
  · intro h
    have h0 : ls.length - 5 = 0 := by omega
    simp [print_build_event, sliceFrom, h0]

/-- Witness for C9 at a concrete one-line log. -/
theorem print_build_event_failure_safe_witness :
    print_build_event (Event.Failure ⟨[OsStr.utf8 []]⟩) =
      some [OsStr.utf8 []] :=
  (print_build_event_failure_safe [OsStr.utf8 []]).2 (by decide)

/-- C10: BuildLoop::new never returns an error value: it yields the
handle carrying the initialized watcher exactly when Watch::init
succeeds, and panics (none) when initialization fails, so a
watcher-initialization failure is never surfaced to the caller as a
Notify Unrecoverable error. -/
theorem build_loop_new_total (p : Project) (init : Except NotifyError Watch) :
    BuildLoop.new p init = init.toOption.map (fun w => ⟨p, w⟩) ∧
      (BuildLoop.new p init).isSome = init.isOk := by
  cases init <;>
    simp [BuildLoop.new, Except.toOption, Except.isOk, Except.toBool]

theorem leadsWith_nil [DecidableEq α] (b : List α) :
    leadsWith ([] : List α) b = true := rfl

theorem leadsWith_refl [DecidableEq α] (a : List α) :
    leadsWith a a = true := by
  induction a with
  | nil => rfl
  | cons x xs ih => simp [leadsWith, ih]

theorem leadsWith_trans [DecidableEq α] :
    ∀ {a b c : List α}, leadsWith a b = true → leadsWith b c = true →
      leadsWith a c = true := by
  intro a
  induction a with
  | nil => intro b c _ _; rfl
  | cons x xs ih =>
    intro b c h1 h2
    cases b with
    | nil => simp [leadsWith] at h1
    | cons y ys =>
      cases c with
      | nil => simp [leadsWith] at h2
      | cons z zs =>
        simp only [leadsWith, Bool.and_eq_true, decide_eq_true_eq] at h1 h2 ⊢
        exact ⟨h1.1.trans h2.1, ih h1.2 h2.2⟩

theorem leadsWith_comp [DecidableEq α] :
    ∀ (l a b : List α), leadsWith a l = true → leadsWith b l = true →
      leadsWith a b = true ∨ leadsWith b a = true := by
  intro l
  induction l with
  | nil =>
    intro a b h1 h2
    cases a with
    | nil => exact Or.inl rfl
    | cons x xs => simp [leadsWith] at h1
  | cons c t ih =>
    intro a b h1 h2
    cases a with
    | nil => exact Or.inl rfl
    | cons x xs =>
      cases b with
      | nil => exact Or.inr rfl
      | cons y ys =>
        simp only [leadsWith, Bool.and_eq_true, decide_eq_true_eq] at h1 h2 ⊢
        rcases ih xs ys h1.2 h2.2 with hc | hc
        · exact Or.inl ⟨h1.1.trans h2.1.symm, hc⟩
        · exact Or.inr ⟨h2.1.trans h1.1.symm, hc⟩

theorem capSimple_leads {pre s : List Char}
    (h : (capSimple pre s).isSome = true) : leadsWith pre s = true := by
  by_contra hc
  rw [capSimple, if_neg hc] at h
  simp at h

theorem capPair_leads {pre : List Char} {tOk : List Char → Bool}
    {s : List Char} (h : (capPair pre tOk s).isSome = true) :
    leadsWith pre s = true := by
  by_contra hc
  rw [capPair, if_neg hc] at h
  simp at h

theorem isSome_of_map_isSome {f : α → β} {o : Option α}
    (h : (o.map f).isSome = true) : o.isSome = true := by
  cases o with
  | none => simp at h
  | some a => rfl

theorem recOf_isSome_leads {r : Recog} {s : List Char}
    (h : (recOf r s).isSome = true) : leadsWith (preOf r) s = true := by
  cases r with
  | evalFile =>
    simp only [recOf] at h
    simp only [preOf]
    exact capSimple_leads (isSome_of_map_isSome h)
  | copiedSource =>
    simp only [recOf] at h
    simp only [preOf]
    exact capPair_leads (isSome_of_map_isSome h)
  | lorriRead =>
    simp only [recOf] at h
    simp only [preOf]
    exact capSimple_leads (isSome_of_map_isSome h)
  | lorriAttr =>
    simp only [recOf] at h
    simp only [preOf]
    exact capPair_leads (isSome_of_map_isSome h)

theorem preOf_incomp : ∀ r r' : Recog, r ≠ r' →
    leadsWith (preOf r) (preOf r') = false := by
  intro r r' h
  cases r <;> cases r' <;> first | exact absurd rfl h | decide

theorem recOf_excl {s : List Char} {r r' : Recog}
    (h : (recOf r s).isSome = true) (h' : (recOf r' s).isSome = true) :
    r = r' := by
  by_contra hne
  have l1 := recOf_isSome_leads h
  have l2 := recOf_isSome_leads h'
  rcases leadsWith_comp s (preOf r) (preOf r') l1 l2 with hc | hc
  · simp [preOf_incomp r r' hne] at hc
  · simp [preOf_incomp r' r (Ne.symm hne)] at hc

theorem findSome?_perm {f : α → Option β}
    (hf : ∀ r r', (f r).isSome = true → (f r').isSome = true → r = r')
    {l₁ l₂ : List α} (hp : l₁.Perm l₂) :
    l₁.findSome? f = l₂.findSome? f := by
  induction hp with
  | nil => rfl
  | cons x _ ih =>
    simp only [List.findSome?]
    cases f x <;> simp [ih]
  | swap x y l =>
    simp only [List.findSome?]
    cases hx : f x with
    | none => cases hy : f y <;> simp
    | some dx =>
      cases hy : f y with
      | none => simp
      | some dy =>
        have hxy : y = x := hf y x (by simp [hy]) (by simp [hx])
        subst hxy
        rw [hx] at hy
        simp [Option.some.inj hy]
  | trans _ _ ih1 ih2 => exact ih1.trans ih2

theorem parse_eq_applyOrder (line : OsStr) :
    parse_evaluation_line line = applyOrder recOrder line := by
  cases line with
  | nonUtf8 bs => rfl
  | utf8 s =>
    simp only [parse_evaluation_line, applyOrder, OsStr.toStr, recOrder,
      List.findSome?]
    cases recOf Recog.evalFile s <;>
      cases recOf Recog.copiedSource s <;>
        cases recOf Recog.lorriRead s <;>
          cases recOf Recog.lorriAttr s <;> rfl

/-- C8: the four recognizers are mutually exclusive on any decoded
line, so the classification produced by the Output Parser is invariant
under reordering of the recognizers: applying them in any order yields
the same LogDatum as the source order. -/
theorem parse_order_invariant (ord : List Recog) (s : List Char)
    (h : ord.Perm recOrder) :
    (∀ r r' d d', recOf r s = some d → recOf r' s = some d' → r = r') ∧
      applyOrder ord (OsStr.utf8 s) = parse_evaluation_line (OsStr.utf8 s) := by
  constructor
  · intro r r' d d' hr hr'
    exact @recOf_excl s r r' (by simp [hr]) (by simp [hr'])
  · rw [parse_eq_applyOrder]
    simp only [applyOrder, OsStr.toStr]
    rw [findSome?_perm (fun r r' hr hr' => recOf_excl hr hr') h]

/-- Witness for C8: a fully reversed recognizer order classifies a
concrete evaluating-file line exactly as the source order does. -/
theorem parse_order_invariant_witness :
    applyOrder
        [Recog.lorriAttr, Recog.lorriRead, Recog.copiedSource, Recog.evalFile]
        (OsStr.utf8 (("evaluating file ".data) ++ [quoteC] ++
          ("/a.nix".data) ++ [quoteC])) =
      parse_evaluation_line
        (OsStr.utf8 (("evaluating file ".data) ++ [quoteC] ++
          ("/a.nix".data) ++ [quoteC])) :=
  (parse_order_invariant _ _ (by decide)).2

theorem altOk_take :
    ∀ (l : List Event) (b : Bool), altOk b l = true →
      ∀ k, altOk b (l.take k) = true := by
  intro l
  induction l with
  | nil =>
    intro b _ k
    rw [List.take_nil]
    cases b <;> rfl
  | cons e r ih =>
    intro b h k
    cases k with
    | zero => cases b <;> rfl
    | succ k' =>
      rw [List.take_succ_cons]
      cases b <;> cases e <;> simp only [altOk] <;>
        first
        | exact ih _ (by simpa [altOk] using h) k'
        | simp [altOk] at h

theorem startWaitOk_take :
    ∀ (t : List LoopAct) (b : Bool), startWaitOk b t = true →
      ∀ k, startWaitOk b (t.take k) = true := by
  intro t
  induction t with
  | nil =>
    intro b _ k
    rw [List.take_nil]
    cases b <;> rfl
  | cons a r ih =>
    intro b h k
    cases k with
    | zero => cases b <;> rfl
    | succ k' =>
      rw [List.take_succ_cons]
      cases a with
      | waited =>
        cases b <;> exact ih false (by simpa [startWaitOk] using h) k'
      | emit e =>
        cases b <;> cases e <;> simp only [startWaitOk] <;>
          first
          | exact ih _ (by simpa [startWaitOk] using h) k'
          | simp [startWaitOk] at h

theorem altOk_foreverActs (xs : List (OnceOut × Bool)) :
    altOk true (actEvents (foreverActs xs)) = true := by
  induction xs with
  | nil => rfl
  | cons x rest ih =>
    obtain ⟨o, w⟩ := x
    cases o <;> cases w <;> first | rfl | exact ih

theorem startWaitOk_foreverActs (xs : List (OnceOut × Bool)) :
    startWaitOk false (foreverActs xs) = true := by
  induction xs with
  | nil => rfl
  | cons x rest ih =>
    obtain ⟨o, w⟩ := x
    cases o <;> cases w <;> first | rfl | exact ih

/-- C2: any finite prefix of a forever run delivers to the sink a
prefix of the language (Started followed by Completed or Failure)
star, in strict alternation, and never emits a second Started before
wait_for_change has returned after the previous cycle. -/
theorem forever_alternation (xs : List (OnceOut × Bool)) (k : Nat) :
    altOk true ((actEvents (foreverActs xs)).take k) = true ∧
      startWaitOk false ((foreverActs xs).take k) = true :=
  ⟨altOk_take _ true (altOk_foreverActs xs) k,
    startWaitOk_take _ false (startWaitOk_foreverActs xs) k⟩

theorem digitVal_digitC (n : Nat) (h : n < 10) : digitVal (digitC n) = n := by
  interval_cases n <;> rfl

theorem natCharsAux_eq (n : Nat) (acc : List Char) :
    natCharsAux n acc =
      if n < 10 then digitC n :: acc
      else natCharsAux (n / 10) (digitC (n % 10) :: acc) := by
  rw [natCharsAux]

theorem natCharsAux_append :
    ∀ (n : Nat) (acc : List Char),
      natCharsAux n acc = natCharsAux n [] ++ acc := by
  intro n
  induction n using Nat.strong_induction_on with
  | _ n ih =>
    intro acc
    by_cases h : n < 10
    · rw [natCharsAux_eq n acc, natCharsAux_eq n []]
      simp [h]
    · rw [natCharsAux_eq n acc, natCharsAux_eq n []]
      simp only [h, if_false]
      rw [ih (n / 10) (Nat.div_lt_self (by omega) (by omega))
          (digitC (n % 10) :: acc),
        ih (n / 10) (Nat.div_lt_self (by omega) (by omega))
          [digitC (n % 10)]]
      simp

theorem charsToNat_append_single (xs : List Char) (c : Char) :
    charsToNat (xs ++ [c]) = charsToNat xs * 10 + digitVal c := by
  simp [charsToNat, List.foldl_append]

theorem charsToNat_natChars (n : Nat) : charsToNat (natChars n) = n := by
  induction n using Nat.strong_induction_on with
  | _ n ih =>
    by_cases h : n < 10
    · rw [natChars, natCharsAux_eq]
      simp only [h, if_true]
      simp [charsToNat, digitVal_digitC n h]
    · rw [natChars, natCharsAux_eq]
      simp only [h, if_false]
      rw [natCharsAux_append]
      rw [show natCharsAux (n / 10) [] = natChars (n / 10) from rfl]
      rw [charsToNat_append_single, ih (n / 10) (Nat.div_lt_self (by omega) (by omega)),
        digitVal_digitC (n % 10) (Nat.mod_lt _ (by omega))]
      omega

theorem natChars_inj {a b : Nat} (h : natChars a = natChars b) : a = b := by
  have hc := congrArg charsToNat h
  rwa [charsToNat_natChars, charsToNat_natChars] at hc

theorem attrName_inj : Function.Injective attrName := by
  intro a b h
  exact List.append_cancel_left h

theorem buildName_inj : Function.Injective buildName := by
  intro a b h
  exact natChars_inj (List.append_cancel_left h)

theorem attrName_ne_buildName (n : List Char) (i : Nat) :
    attrName n ≠ buildName i := by
  intro h
  have h1 : leadsWith [Char.ofNat 97] (attrName n) = true := rfl
  have h2 : leadsWith [Char.ofNat 97] (buildName i) = false := rfl
  rw [h, h2] at h1
  exact absurd h1 (by decide)

theorem registerNamed_trace_add (c : Collabs) :
    ∀ (entries : List (List Char × List Char)) (acc : List (List Char × RootPath)),
      ((registerNamed c entries acc).2).all isAddOp = true := by
  intro entries
  induction entries with
  | nil => intro acc; rfl
  | cons p rest ih =>
    intro acc
    obtain ⟨n, d⟩ := p
    cases h : c.addRoot (attrName n) d <;>
      simp [registerNamed, h, isAddOp, ih]

theorem registerPositional_trace_add (c : Collabs) :
    ∀ (entries : List (Nat × List Char)) (acc : List (Nat × RootPath)),
      ((registerPositional c entries acc).2).all isAddOp = true := by
  intro entries
  induction entries with
  | nil => intro acc; rfl
  | cons p rest ih =>
    intro acc
    obtain ⟨i, d⟩ := p
    cases h : c.addRoot (buildName i) d <;>
      simp [registerPositional, h, isAddOp, ih]

theorem registerNamed_ok (c : Collabs)
    (hAdd : ∀ n d, ∃ r, c.addRoot n d = Except.ok r) :
    ∀ (entries : List (List Char × List Char)) (acc : List (List Char × RootPath)),
      ∃ m, registerNamed c entries acc =
        (Except.ok m, entries.map (fun p => LoopOp.addRoot (attrName p.1) p.2)) := by
  intro entries
  induction entries with
  | nil => intro acc; exact ⟨acc, rfl⟩
  | cons p rest ih =>
    intro acc
    obtain ⟨n, d⟩ := p
    obtain ⟨r, hr⟩ := hAdd (attrName n) d
    obtain ⟨m, hm⟩ := ih (hmInsert n r acc)
    exact ⟨m, by simp [registerNamed, hr, hm]⟩

theorem registerPositional_ok (c : Collabs)
    (hAdd : ∀ n d, ∃ r, c.addRoot n d = Except.ok r) :
    ∀ (entries : List (Nat × List Char)) (acc : List (Nat × RootPath)),
      ∃ m, registerPositional c entries acc =
        (Except.ok m, entries.map (fun p => LoopOp.addRoot (buildName p.1) p.2)) := by
  intro entries
  induction entries with
  | nil => intro acc; exact ⟨acc, rfl⟩
  | cons p rest ih =>
    intro acc
    obtain ⟨i, d⟩ := p
    obtain ⟨r, hr⟩ := hAdd (buildName i) d
    obtain ⟨m, hm⟩ := ih (hmInsert i r acc)
    exact ⟨m, by simp [registerPositional, hr, hm]⟩

theorem registerNamed_spec :
    ∀ (entries : List (List Char × List Char)) (acc : List (List Char × RootPath)),
      registerNamed specCollabs entries acc =
        (Except.ok (entries.foldl
            (fun m p => hmInsert p.1 (⟨attrName p.1⟩ : RootPath) m) acc),
          entries.map (fun p => LoopOp.addRoot (attrName p.1) p.2)) := by
  intro entries
  induction entries with
  | nil => intro acc; rfl
  | cons p rest ih =>
    intro acc
    obtain ⟨n, d⟩ := p
    have step : registerNamed specCollabs ((n, d) :: rest) acc =
        ((registerNamed specCollabs rest
            (hmInsert n (⟨attrName n⟩ : RootPath) acc)).1,
          LoopOp.addRoot (attrName n) d ::
            (registerNamed specCollabs rest
              (hmInsert n (⟨attrName n⟩ : RootPath) acc)).2) := rfl
    rw [step, ih (hmInsert n (⟨attrName n⟩ : RootPath) acc)]
    rfl

theorem registerPositional_spec :
    ∀ (entries : List (Nat × List Char)) (acc : List (Nat × RootPath)),
      registerPositional specCollabs entries acc =
        (Except.ok (entries.foldl
            (fun m p => hmInsert p.1 (⟨buildName p.1⟩ : RootPath) m) acc),
          entries.map (fun p => LoopOp.addRoot (buildName p.1) p.2)) := by
  intro entries
  induction entries with
  | nil => intro acc; rfl
  | cons p rest ih =>
    intro acc
    obtain ⟨i, d⟩ := p
    have step : registerPositional specCollabs ((i, d) :: rest) acc =
        ((registerPositional specCollabs rest
            (hmInsert i (⟨buildName i⟩ : RootPath) acc)).1,
          LoopOp.addRoot (buildName i) d ::
            (registerPositional specCollabs rest
              (hmInsert i (⟨buildName i⟩ : RootPath) acc)).2) := rfl
    rw [step, ih (hmInsert i (⟨buildName i⟩ : RootPath) acc)]
    rfl

theorem dropWhile_append_of_all {p : α → Bool} :
    ∀ {t r : List α}, t.all p = true →
      (t ++ r).dropWhile p = r.dropWhile p := by
  intro t
  induction t with
  | nil => intro r _; rfl
  | cons a t ih =>
    intro r h
    rw [List.all_cons, Bool.and_eq_true] at h
    rw [List.cons_append, List.dropWhile_cons_of_pos h.1]
    exact ih h.2

theorem all_add_addsBeforeExt {t : List LoopOp} (h : t.all isAddOp = true) :
    addsBeforeExt t = true := by
  rw [addsBeforeExt, show t = t ++ [] from (List.append_nil t).symm,
    dropWhile_append_of_all h]
  rfl

theorem all_add_ext_addsBeforeExt {t : List LoopOp} (h : t.all isAddOp = true)
    (ps : List (List Char)) :
    addsBeforeExt (t ++ [LoopOp.extendWatch ps]) = true := by
  rw [addsBeforeExt, dropWhile_append_of_all h]
  rfl

/-- C6: in every execution of BuildLoop::once, all root registrations
precede the watch extension in the operation trace, and whenever once
returns without an unrecoverable error the watch extension has
completed as the final operation before the return, hence before any
Completed event could be emitted by forever. -/
theorem once_roots_before_watch (b : Info) (c : Collabs) :
    addsBeforeExt (buildLoopOnce b c).2 = true ∧
      (unrecFree (buildLoopOnce b c).1 = true →
        (buildLoopOnce b c).2.getLast? =
          some (LoopOp.extendWatch (reduce_paths b.paths))) := by
  have hall1 := registerNamed_trace_add c b.named_drvs []
  have hall2 := registerPositional_trace_add c b.drvs.enum []
  cases h1 : registerNamed c b.named_drvs [] with
  | mk res1 tr1 =>
    rw [h1] at hall1
    cases res1 with
    | error e =>
      constructor
      · simp only [buildLoopOnce, h1]
        exact all_add_addsBeforeExt hall1
      · intro hu
        simp [buildLoopOnce, h1, unrecFree] at hu
    | ok named =>
      cases h2 : registerPositional c b.drvs.enum [] with
      | mk res2 tr2 =>
        rw [h2] at hall2
        cases res2 with
        | error e =>
          constructor
          · simp only [buildLoopOnce, h1, h2]
            exact all_add_addsBeforeExt
              (by rw [List.all_append]; simp [hall1, hall2])
          · intro hu
            simp [buildLoopOnce, h1, h2, unrecFree] at hu
        | ok drvs =>
          have halls : (tr1 ++ tr2).all isAddOp = true := by
            rw [List.all_append]; simp [hall1, hall2]
          cases h3 : c.extendWatch (reduce_paths b.paths) with
          | error e =>
            constructor
            · simp only [buildLoopOnce, h1, h2, h3]
              exact all_add_ext_addsBeforeExt halls _
            · intro hu
              simp [buildLoopOnce, h1, h2, h3, unrecFree] at hu
          | ok u =>
            cases hex : b.exec_result
            · constructor
              · simp only [buildLoopOnce, h1, h2, h3, hex]
                exact all_add_ext_addsBeforeExt halls _
              · intro _
                simp only [buildLoopOnce, h1, h2, h3, hex]
                exact List.getLast?_concat _
            · constructor
              · simp only [buildLoopOnce, h1, h2, h3, hex]
                exact all_add_ext_addsBeforeExt halls _
              · intro _
                simp only [buildLoopOnce, h1, h2, h3, hex]
                exact List.getLast?_concat _

/-- Witness for C6 at a concrete successful invocation carrying one
named artifact. -/
theorem once_roots_before_watch_witness :
    addsBeforeExt
        (buildLoopOnce
          (instrumented_build true []
            [OsStr.utf8 (lorriAttrPre ++ ("shell".data) ++ midArrow ++
              ("/nix/store/x".data) ++ [quoteC])])
          specCollabs).2 = true ∧
      (buildLoopOnce
          (instrumented_build true []
            [OsStr.utf8 (lorriAttrPre ++ ("shell".data) ++ midArrow ++
              ("/nix/store/x".data) ++ [quoteC])])
          specCollabs).2.getLast? =
        some (LoopOp.extendWatch (reduce_paths
          (instrumented_build true []
            [OsStr.utf8 (lorriAttrPre ++ ("shell".data) ++ midArrow ++
              ("/nix/store/x".data) ++ [quoteC])]).paths)) :=
  ⟨(once_roots_before_watch _ specCollabs).1,
    (once_roots_before_watch _ specCollabs).2 (by decide)⟩

theorem recOf_not_text {r : Recog} {s : List Char} {d : LogDatum}
    (h : recOf r s = some d) : ∀ x, d ≠ LogDatum.Text x := by
  intro x hx
  subst hx
  cases r <;> simp only [recOf, Option.map_eq_some'] at h <;>
    obtain ⟨a, _, ha⟩ := h <;> exact LogDatum.noConfusion ha

theorem parse_text_eq {l x : OsStr}
    (h : parse_evaluation_line l = LogDatum.Text x) : x = l := by
  cases l with
  | nonUtf8 bs =>
    exact (LogDatum.Text.inj
      (show LogDatum.Text (OsStr.nonUtf8 bs) = LogDatum.Text x from h)).symm
  | utf8 s =>
    simp only [parse_evaluation_line, OsStr.toStr] at h
    cases h1 : recOf Recog.evalFile s with
    | some d =>
      rw [h1] at h
      exact absurd (show d = LogDatum.Text x from h) (recOf_not_text h1 x)
    | none =>
      rw [h1] at h
      cases h2 : recOf Recog.copiedSource s with
      | some d =>
        rw [h2] at h
        exact absurd (show d = LogDatum.Text x from h) (recOf_not_text h2 x)
      | none =>
        rw [h2] at h
        cases h3 : recOf Recog.lorriRead s with
        | some d =>
          rw [h3] at h
          exact absurd (show d = LogDatum.Text x from h) (recOf_not_text h3 x)
        | none =>
          rw [h3] at h
          cases h4 : recOf Recog.lorriAttr s with
          | some d =>
            rw [h4] at h
            exact absurd (show d = LogDatum.Text x from h) (recOf_not_text h4 x)
          | none =>
            rw [h4] at h
            exact (LogDatum.Text.inj
              (show LogDatum.Text (OsStr.utf8 s) = LogDatum.Text x from h)).symm

theorem txtOf_parse (l : OsStr) :
    txtOf (parse_evaluation_line l) =
      if isTextLine l then some l else none := by
  cases hp : parse_evaluation_line l with
  | Source p => simp [txtOf, isTextLine, hp]
  | AttrDrv n d => simp [txtOf, isTextLine, hp]
  | Text x =>
    have hx := parse_text_eq hp
    subst hx
    simp [txtOf, isTextLine, hp]

theorem filterMap_eq_filter_of {f : α → Option α} {p : α → Bool}
    (hf : ∀ a, f a = if p a then some a else none) :
    ∀ l : List α, l.filterMap f = l.filter p := by
  intro l
  induction l with
  | nil => rfl
  | cons a t ih =>
    by_cases hp : p a = true <;>
      simp [List.filterMap_cons, List.filter_cons, hf a, hp, ih]

theorem instrumented_log_lines (exit : Bool) (sOut : List (List Char))
    (sErr : List OsStr) :
    (instrumented_build exit sOut sErr).log_lines = sErr.filter isTextLine := by
  show (foldTriple (parse_nix_output parse_evaluation_line sErr)).2.2 = _
  rw [foldTriple, fold_logs (parse_nix_output parse_evaluation_line sErr) ([], [], [])]
  simp only [List.nil_append]
  rw [parse_nix_output, List.filterMap_map]
  exact filterMap_eq_filter_of (fun a => txtOf_parse a) sErr

/-- C1 counterexample: an invocation whose exit status indicates
success but for which the root registration fails yields an
unrecoverable error, not Ok, refuting the claimed equivalence between
Ok results and successful exit status. -/
theorem once_ok_iff_exit_counterexample :
    ((Info.mk true [(("shell".data), ("/nix/store/x".data))] [] [] []).exec_result
        = true) ∧
      ¬ ((buildLoopOnce
            (Info.mk true [(("shell".data), ("/nix/store/x".data))] [] [] [])
            ⟨fun _ _ => Except.error ⟨⟩, fun _ => Except.ok ()⟩).1.isOk = true) := by
  constructor
  · rfl
  · decide

/-- C1 amended: provided every root registration and the watch
extension succeed, once returns Ok exactly when the exit status
indicates success, and otherwise returns a recoverable BuildExitFailure
whose log_lines are exactly the Text-classified stderr lines of the
invocation, verbatim and in order. -/
theorem once_exit_status_amended (exit : Bool) (sOut : List (List Char))
    (sErr : List OsStr) (c : Collabs)
    (hAdd : ∀ n d, ∃ r, c.addRoot n d = Except.ok r)
    (hExt : ∀ ps, c.extendWatch ps = Except.ok ()) :
    ((buildLoopOnce (instrumented_build exit sOut sErr) c).1.isOk = exit) ∧
      (exit = false →
        (buildLoopOnce (instrumented_build exit sOut sErr) c).1 =
          Except.error (BuildError.recoverable ⟨sErr.filter isTextLine⟩)) := by
  obtain ⟨m1, h1⟩ :=
    registerNamed_ok c hAdd (instrumented_build exit sOut sErr).named_drvs []
  obtain ⟨m2, h2⟩ :=
    registerPositional_ok c hAdd (instrumented_build exit sOut sErr).drvs.enum []
  have hex : (instrumented_build exit sOut sErr).exec_result = exit := rfl
  have hlog := instrumented_log_lines exit sOut sErr
  constructor
  · simp only [buildLoopOnce, h1, h2, hExt, hex]
    cases exit <;> simp [Except.isOk, Except.toBool]
  · intro hfalse
    subst hfalse
    simp only [buildLoopOnce, h1, h2, hExt, hex, hlog]
    rfl

/-- Witness for the amended C1 at a failing invocation with one opaque
stderr line. -/
theorem once_exit_status_amended_witness :
    (buildLoopOnce (instrumented_build false [] [OsStr.utf8 ("oops".data)])
        specCollabs).1 =
      Except.error (BuildError.recoverable
        ⟨([OsStr.utf8 ("oops".data)]).filter isTextLine⟩) :=
  (once_exit_status_amended false [] [OsStr.utf8 ("oops".data)] specCollabs
    (fun n _ => ⟨⟨n⟩, rfl⟩) (fun _ => rfl)).2 rfl

theorem splitSlash_ne_nil : ∀ p : List Char, splitSlash p ≠ [] := by
  intro p
  cases p with
  | nil => simp [splitSlash]
  | cons c rest =>
    simp only [splitSlash]
    cases h : splitSlash rest with
    | nil => simp
    | cons g gs => by_cases hc : c = slashC <;> simp [hc]

theorem reduce_covers_aux (s : List (List Char)) :
    ∀ (n : Nat) (p : List Char), (splitSlash p).length ≤ n → p ∈ s →
      ∃ q ∈ reduce_paths s,
        leadsWith (splitSlash q) (splitSlash p) = true := by
  intro n
  induction n with
  | zero =>
    intro p hlen _
    have hne := splitSlash_ne_nil p
    cases hsp : splitSlash p with
    | nil => exact absurd hsp hne
    | cons a t => rw [hsp] at hlen; simp at hlen
  | succ n ih =>
    intro p hlen hp
    by_cases hdom : s.any (fun q => dominatedBy p q) = true
    · obtain ⟨q1, hq1, hd⟩ := List.any_eq_true.mp hdom
      simp only [dominatedBy, Bool.and_eq_true, decide_eq_true_eq] at hd
      obtain ⟨q, hq, hlead⟩ := ih q1 (by omega) hq1
      exact ⟨q, hq, leadsWith_trans hlead hd.1⟩
    · refine ⟨p, ?_, leadsWith_refl _⟩
      rw [reduce_paths, List.mem_filter]
      exact ⟨hp, by simp [hdom]⟩

theorem mem_foldl_watch (infos : List Info) :
    ∀ (acc : List (List Char)) (x : List Char), x ∈ acc →
      x ∈ infos.foldl (fun ws b => ws ++ reduce_paths b.paths) acc := by
  induction infos with
  | nil => intro acc x hx; exact hx
  | cons i rest ih =>
    intro acc x hx
    exact ih _ x (List.mem_append_left _ hx)

theorem mem_sessionWatchSet :
    ∀ (infos : List Info) (b : Info), b ∈ infos →
      ∀ x ∈ reduce_paths b.paths, ∀ acc,
        x ∈ infos.foldl (fun ws b2 => ws ++ reduce_paths b2.paths) acc := by
  intro infos
  induction infos with
  | nil => intro b hb; cases hb
  | cons i rest ih =>
    intro b hb x hx acc
    rcases List.mem_cons.mp hb with rfl | hb'
    · exact mem_foldl_watch rest _ x (List.mem_append_right _ hx)
    · exact ih b hb' x hx _

/-- C7 counterexample: a session whose single invocation reports the
source paths /a and /a/b extends the watcher only with the reduced set,
so /a/b, although reported as a source, is not a member of the watch
set afterwards. -/
theorem watchset_membership_counterexample :
    ¬ (("/a/b".data) ∈ sessionWatchSet
        [Info.mk true [] [] [("/a".data), ("/a/b".data)] []]) := by
  decide

/-- C7 amended: every path returned as a source by an invocation of the
session is covered by the watch set afterwards: some member of the
watch set is the path itself or an ancestor of it, membership of the
exact path holding only when no ancestor in the same reported set
dominates it. -/
theorem watchset_coverage_amended (infos : List Info) (b : Info)
    (p : List Char) (hb : b ∈ infos) (hp : p ∈ b.paths) :
    ∃ q ∈ sessionWatchSet infos,
      leadsWith (splitSlash q) (splitSlash p) = true := by
  obtain ⟨q, hq, hlead⟩ :=
    reduce_covers_aux b.paths (splitSlash p).length p le_rfl hp
  exact ⟨q, mem_sessionWatchSet infos b hb q hq [], hlead⟩

/-- Witness for the amended C7 at the counterexample session: /a covers
/a/b in the resulting watch set. -/
theorem watchset_coverage_amended_witness :
    ∃ q ∈ sessionWatchSet [Info.mk true [] [] [("/a".data), ("/a/b".data)] []],
      leadsWith (splitSlash q) (splitSlash ("/a/b".data)) = true :=
  watchset_coverage_amended
    [Info.mk true [] [] [("/a".data), ("/a/b".data)] []]
    (Info.mk true [] [] [("/a".data), ("/a/b".data)] [])
    ("/a/b".data) (by decide) (by decide)

theorem hmInsert_keys_nodup [BEq κ] [LawfulBEq κ] {m : List (κ × α)}
    (k : κ) (v : α) (h : (m.map Prod.fst).Nodup) :
    ((hmInsert k v m).map Prod.fst).Nodup := by
  by_cases hc : m.any (fun p => p.1 == k) = true
  · rw [hmInsert, if_pos hc, List.map_map]
    have heq : m.map (Prod.fst ∘ fun p => if (p.1 == k) = true then (k, v) else p)
        = m.map Prod.fst := by
      apply List.map_congr_left
      intro p _
      by_cases hpk : (p.1 == k) = true
      · simp only [Function.comp_apply, if_pos hpk]
        exact (beq_iff_eq.mp hpk).symm
      · simp only [Function.comp_apply, if_neg hpk]
    rw [heq]
    exact h
  · rw [hmInsert, if_neg hc]
    have hk : k ∉ m.map Prod.fst := by
      intro hmem
      obtain ⟨q, hq, hfst⟩ := List.mem_map.mp hmem
      exact hc (List.any_eq_true.mpr ⟨q, hq, by simp [hfst]⟩)
    have hmap : ((m ++ [(k, v)]).map Prod.fst) = m.map Prod.fst ++ [k] := by
      rw [List.map_append]
      rfl
    rw [hmap]
    exact h.append (List.nodup_singleton _) (fun a ha hb => by
      rw [List.mem_singleton] at hb
      subst hb
      exact hk ha)

theorem foldStep_keys_nodup :
    ∀ (rs : List LogDatum)
      (acc : List (List Char) × List (List Char × List Char) × List OsStr),
      (acc.2.1.map Prod.fst).Nodup →
      (((rs.foldl foldStep acc).2.1).map Prod.fst).Nodup := by
  intro rs
  induction rs with
  | nil => intro acc h; exact h
  | cons r rest ih =>
    intro acc h
    rw [List.foldl_cons]
    apply ih
    cases r with
    | Source p => exact h
    | Text l => exact h
    | AttrDrv n d => exact hmInsert_keys_nodup n d h

theorem instrumented_named_keys_nodup (exit : Bool) (sOut : List (List Char))
    (sErr : List OsStr) :
    ((instrumented_build exit sOut sErr).named_drvs.map Prod.fst).Nodup :=
  foldStep_keys_nodup _ ([], [], []) (by simp)

theorem foldl_hmInsert_fresh [BEq κ] [LawfulBEq κ] (g : κ → α) :
    ∀ (entries : List (κ × β)) (acc : List (κ × α)),
      (entries.map Prod.fst).Nodup →
      (∀ p ∈ entries, p.1 ∉ acc.map Prod.fst) →
      entries.foldl (fun m p => hmInsert p.1 (g p.1) m) acc =
        acc ++ entries.map (fun p => (p.1, g p.1)) := by
  intro entries
  induction entries with
  | nil => intro acc _ _; simp
  | cons p rest ih =>
    intro acc hnd hfresh
    rw [List.foldl_cons]
    have hfr : p.1 ∉ acc.map Prod.fst := hfresh p (List.mem_cons_self _ _)
    have hcc : ¬(acc.any (fun q => q.1 == p.1) = true) := by
      intro hany
      obtain ⟨q, hq, hbeq⟩ := List.any_eq_true.mp hany
      exact hfr (List.mem_map.mpr ⟨q, hq, beq_iff_eq.mp hbeq⟩)
    have hins : hmInsert p.1 (g p.1) acc = acc ++ [(p.1, g p.1)] := by
      rw [hmInsert, if_neg hcc]
    rw [List.map_cons, List.nodup_cons] at hnd
    rw [hins, ih (acc ++ [(p.1, g p.1)]) hnd.2 ?fresh2]
    · rw [List.map_cons, List.append_assoc]
      rfl
    case fresh2 =>
      intro q hq
      rw [List.map_append]
      intro hmem
      rcases List.mem_append.mp hmem with hin | hin
      · exact hfresh q (List.mem_cons_of_mem _ hq) hin
      · simp only [List.map_cons, List.map_nil, List.mem_singleton] at hin
        exact hnd.1 (List.mem_map.mpr ⟨q, hq, hin⟩)

theorem eq_of_mem_keys_nodup [BEq κ] :
    ∀ {l : List (κ × α)}, (l.map Prod.fst).Nodup →
      ∀ {p q : κ × α}, p ∈ l → q ∈ l → p.1 = q.1 → p = q := by
  intro l
  induction l with
  | nil => intro _ p q hp; cases hp
  | cons a t ih =>
    intro h p q hp hq hk
    rw [List.map_cons, List.nodup_cons] at h
    rcases List.mem_cons.mp hp with hpa | hp'
    · rcases List.mem_cons.mp hq with hqa | hq'
      · rw [hpa, hqa]
      · subst hpa
        exact absurd (List.mem_map.mpr ⟨q, hq', hk.symm⟩) h.1
    · rcases List.mem_cons.mp hq with hqa | hq'
      · subst hqa
        exact absurd (List.mem_map.mpr ⟨p, hp', hk⟩) h.1
      · exact ih h.2 hp' hq' hk

theorem discipline_keys_nodup (exit : Bool) (sOut : List (List Char))
    (sErr : List OsStr) :
    ((discipline (instrumented_build exit sOut sErr)).map Prod.fst).Nodup := by
  rw [discipline, List.map_append, List.map_map, List.map_map]
  have e1 : (Prod.fst ∘ fun p : List Char × List Char => (attrName p.1, p.2))
      = attrName ∘ Prod.fst := rfl
  have e2 : (Prod.fst ∘ fun p : Nat × List Char => (buildName p.1, p.2))
      = buildName ∘ Prod.fst := rfl
  rw [e1, e2, ← List.map_map attrName Prod.fst, ← List.map_map buildName Prod.fst,
    List.enum_map_fst]
  apply List.Nodup.append
  · exact (instrumented_named_keys_nodup exit sOut sErr).map attrName_inj
  · exact (List.nodup_range _).map buildName_inj
  · intro a ha hb
    obtain ⟨n, _, hn⟩ := List.mem_map.mp ha
    obtain ⟨i, _, hi⟩ := List.mem_map.mp hb
    exact attrName_ne_buildName n i (hn.trans hi.symm)

theorem filterMap_opAdd_named (l : List (List Char × List Char)) :
    (l.map (fun p => LoopOp.addRoot (attrName p.1) p.2)).filterMap opAddPair
      = l.map (fun p => (attrName p.1, p.2)) := by
  induction l with
  | nil => rfl
  | cons p t ih => simp [List.filterMap_cons, opAddPair, ih]

theorem filterMap_opAdd_pos (l : List (Nat × List Char)) :
    (l.map (fun p => LoopOp.addRoot (buildName p.1) p.2)).filterMap opAddPair
      = l.map (fun p => (buildName p.1, p.2)) := by
  induction l with
  | nil => rfl
  | cons p t ih => simp [List.filterMap_cons, opAddPair, ih]

theorem buildLoopOnce_spec_eq (exit : Bool) (sOut : List (List Char))
    (sErr : List OsStr) :
    buildLoopOnce (instrumented_build exit sOut sErr) specCollabs =
      ((if exit then
          Except.ok
            ⟨(instrumented_build exit sOut sErr).drvs.enum.map
                (fun p => (p.1, (⟨buildName p.1⟩ : RootPath))),
              (instrumented_build exit sOut sErr).named_drvs.map
                (fun p => (p.1, (⟨attrName p.1⟩ : RootPath)))⟩
        else
          Except.error (BuildError.recoverable
            ⟨(instrumented_build exit sOut sErr).log_lines⟩)),
        ((instrumented_build exit sOut sErr).named_drvs.map
            (fun p => LoopOp.addRoot (attrName p.1) p.2)) ++
          ((instrumented_build exit sOut sErr).drvs.enum.map
            (fun p => LoopOp.addRoot (buildName p.1) p.2)) ++
          [LoopOp.extendWatch
            (reduce_paths (instrumented_build exit sOut sErr).paths)]) := by
  have hnamed := registerNamed_spec (instrumented_build exit sOut sErr).named_drvs []
  have hpos := registerPositional_spec (instrumented_build exit sOut sErr).drvs.enum []
  have hkn := instrumented_named_keys_nodup exit sOut sErr
  have hkp : ((instrumented_build exit sOut sErr).drvs.enum.map Prod.fst).Nodup := by
    rw [List.enum_map_fst]
    exact List.nodup_range _
  have hfoldn := foldl_hmInsert_fresh (fun k => (⟨attrName k⟩ : RootPath))
    (instrumented_build exit sOut sErr).named_drvs [] hkn (by simp)
  have hfoldp := foldl_hmInsert_fresh (fun k => (⟨buildName k⟩ : RootPath))
    (instrumented_build exit sOut sErr).drvs.enum [] hkp (by simp)
  rw [hfoldn] at hnamed
  rw [hfoldp] at hpos
  simp only [List.nil_append] at hnamed hpos
  have hex : (instrumented_build exit sOut sErr).exec_result = exit := rfl
  simp only [buildLoopOnce]
  rw [hnamed, hpos]
  cases exit <;> rfl

/-- C5: for every successful once call, the operation trace registers
each named artifact under attr-(name) and each positional artifact
under build-(index) exactly as the naming discipline prescribes, and
every RootPath in the returned BuildResults maps back through the
discipline to exactly one ArtifactPath of the BuildInfo. -/
theorem once_root_discipline (exit : Bool) (sOut : List (List Char))
    (sErr : List OsStr) (res : BuildResults)
    (h : (buildLoopOnce (instrumented_build exit sOut sErr) specCollabs).1 =
      Except.ok res) :
    ((buildLoopOnce (instrumented_build exit sOut sErr) specCollabs).2.filterMap
        opAddPair = discipline (instrumented_build exit sOut sErr)) ∧
      ∀ r ∈ resultRoots res,
        ∃! pr, pr ∈ discipline (instrumented_build exit sOut sErr) ∧
          pr.1 = r.name := by
  have hspec := buildLoopOnce_spec_eq exit sOut sErr
  constructor
  · rw [hspec]
    simp only [List.filterMap_append, filterMap_opAdd_named, filterMap_opAdd_pos]
    rw [discipline]
    simp [opAddPair]
  · rw [hspec] at h
    cases hex : exit
    · rw [hex] at h
      simp at h
    · rw [hex] at h
      simp only [if_true] at h
      have hres := (Except.ok.inj h).symm
      subst hres
      intro r hr
      rw [resultRoots] at hr
      rcases List.mem_append.mp hr with hrn | hrp
      · rw [List.map_map] at hrn
        obtain ⟨p, hp, hpr⟩ := List.mem_map.mp hrn
        have hname : r.name = attrName p.1 :=
          congrArg RootPath.name hpr.symm
        refine ⟨(attrName p.1, p.2), ⟨?_, ?_⟩, ?_⟩
        · rw [discipline]
          exact List.mem_append_left _ (List.mem_map.mpr ⟨p, hp, rfl⟩)
        · rw [hname]
        · intro y hy
          exact eq_of_mem_keys_nodup (discipline_keys_nodup exit sOut sErr) hy.1
            (by
              rw [discipline]
              exact List.mem_append_left _ (List.mem_map.mpr ⟨p, hp, rfl⟩))
            (by rw [hy.2, hname])
      · rw [List.map_map] at hrp
        obtain ⟨p, hp, hpr⟩ := List.mem_map.mp hrp
        have hname : r.name = buildName p.1 :=
          congrArg RootPath.name hpr.symm
        refine ⟨(buildName p.1, p.2), ⟨?_, ?_⟩, ?_⟩
        · rw [discipline]
          exact List.mem_append_right _ (List.mem_map.mpr ⟨p, hp, rfl⟩)
        · rw [hname]
        · intro y hy
          exact eq_of_mem_keys_nodup (discipline_keys_nodup exit sOut sErr) hy.1
            (by
              rw [discipline]
              exact List.mem_append_right _ (List.mem_map.mpr ⟨p, hp, rfl⟩))
            (by rw [hy.2, hname])

/-- Witness for C5 at a concrete successful invocation carrying the
named artifact shell: the root path named attr-shell maps back to
exactly one discipline entry. -/
theorem once_root_discipline_witness :
    ∃! pr, pr ∈ discipline (instrumented_build true []
        [OsStr.utf8 (lorriAttrPre ++ ("shell".data) ++ midArrow ++
          ("/nix/store/x".data) ++ [quoteC])]) ∧
      pr.1 = (RootPath.mk (attrName ("shell".data))).name :=
  (once_root_discipline true []
    [OsStr.utf8 (lorriAttrPre ++ ("shell".data) ++ midArrow ++
      ("/nix/store/x".data) ++ [quoteC])]
    (BuildResults.mk []
      [(("shell".data), RootPath.mk (attrName ("shell".data)))])
    (by rfl)).2
    (RootPath.mk (attrName ("shell".data))) (by decide)
